import Mathlib

/-
Verification of the Manchester United fixtures app (streamlitunitedapp.py).

The file shallowly embeds the core logic of the script:
  - normalize                (line 45-46)
  - find_clubelo_href        (line 72-93), with the similarity function of
    difflib (an external library) abstracted as a parameter, and the index
    built by build_clubelo_index (network + HTML) as a parameter
  - get_elo_for_team         (line 95-116), with the network fetch modelled
    as an Except-valued parameter and BeautifulSoup get_text as a parameter
  - parse_espn_fixtures_page (line 118-195), on the list of non-empty
    stripped lines of the fetched page (the fetch itself is external)
  - elo_expected / probability_from_elos (line 197-221), over the reals.

Regular expressions of the source are compiled to explicit character
scanners.  Each regex used here has the property that adjacent greedy
pieces match disjoint character classes, so greedy scanning without
backtracking is exact; the one backtracking point (one or two digits before
the colon of the time pattern) is handled by trying the two-digit shape
first.  The character classes for the shorthand classes are the ASCII ones.
-/

namespace UnitedApp

/-! ## Text normalizer (source line 45-46) -/

/-- Python's str.lower for the ASCII range: chars A-Z get 32 added. -/
def pyLower (c : Char) : Char :=
  if 'A' ≤ c && c ≤ 'Z' then Char.ofNat (c.toNat + 32) else c

/-- Characters kept by re.sub(r'[^a-z1-10]', '', ...): the class [a-z1-10]
is the range a-z, the (degenerate) range 1-1 and the literal 0. -/
def keepChar (c : Char) : Bool :=
  ('a' ≤ c && c ≤ 'z') || c == '1' || c == '0'

/-- normalize(name) = re.sub(r'[^a-z1-10]', '', name.lower()). -/
def normalize (name : String) : String :=
  ⟨(name.data.map pyLower).filter keepChar⟩

/-! ## Character classes for the regex scanners -/

/-- ASCII whitespace as matched by the regex class backslash-s. -/
def isPySpace (c : Char) : Bool :=
  c == ' ' || c == '\t' || c == '\n' || c == '\r' || c == '\x0b' || c == '\x0c'

def isAsciiAlpha (c : Char) : Bool :=
  ('A' ≤ c && c ≤ 'Z') || ('a' ≤ c && c ≤ 'z')

def isAsciiDigit (c : Char) : Bool :=
  '0' ≤ c && c ≤ '9'

/-- The class [1-10] of the Elo pattern: the range 1-1 plus the literal 0,
i.e. exactly the two characters 0 and 1. -/
def isBinDigit (c : Char) : Bool :=
  c == '0' || c == '1'

def isColonSpace (c : Char) : Bool :=
  c == ':' || isPySpace c

/-- Python substring test (needle in hay). -/
def listContains (needle : List Char) : List Char → Bool
  | [] => needle.isEmpty
  | c :: rest => needle.isPrefixOf (c :: rest) || listContains needle rest

def containsSub (hay needle : String) : Bool :=
  listContains needle.data hay.data

/-! ## Fuzzy resolver find_clubelo_href (source line 72-93) -/

/-- Loop body of find_clubelo_href over the (display, href, normalized)
triples of the ClubElo index.  The similarity function stands for
SequenceMatcher(None, norm, target).ratio(); best starts at (None, None, 0.0)
and is improved on strictly larger ratios only. -/
def resolveLoop (ratioFn : String → String → ℚ) (target : String) :
    List (String × String × String) → (Option String × Option String × ℚ) →
    Option String × Option String
  | [], best => if (0.65 : ℚ) ≤ best.2.2 then (best.1, best.2.1) else (none, none)
  | (display, href, norm) :: rest, best =>
    if norm == target then (some href, some display)
    else if containsSub norm target || containsSub target norm then (some href, some display)
    else if best.2.2 < ratioFn norm target then
      resolveLoop ratioFn target rest (some href, some display, ratioFn norm target)
    else resolveLoop ratioFn target rest best

/-- find_clubelo_href(team_name): exact, then substring, then fuzzy with
acceptance threshold 0.65.  The index argument stands for
build_clubelo_index(). -/
def find_clubelo_href (ratioFn : String → String → ℚ)
    (index : List (String × String × String)) (team_name : String) :
    Option String × Option String :=
  resolveLoop ratioFn (normalize team_name) index (none, none, 0)

/-! ## Rating fetcher get_elo_for_team (source line 95-116) -/

def CLUBELO_BASE : String := "https://clubelo.com"

/-- Matching attempt of the pattern Elo[:\x5cs]*([1-10]\x7b3,4\x7d) at the
head of the list: the literal Elo, any number of colons or spaces, then
greedily four, else three, characters that are 0 or 1.  Returns the
captured group. -/
def matchEloAt : List Char → Option (List Char)
  | 'E' :: 'l' :: 'o' :: rest =>
    match rest.dropWhile isColonSpace with
    | a :: b :: c :: tail =>
      if isBinDigit a && isBinDigit b && isBinDigit c then
        match tail with
        | d :: _ => if isBinDigit d then some [a, b, c, d] else some [a, b, c]
        | [] => some [a, b, c]
      else none
    | _ => none
  | _ => none

/-- re.search of the Elo pattern: leftmost matching position. -/
def searchElo : List Char → Option (List Char)
  | [] => none
  | l@(_ :: rest) =>
    match matchEloAt l with
    | some g => some g
    | none => searchElo rest

/-- Python int() on the captured group of decimal digits. -/
def digitsToNat (g : List Char) : Nat :=
  g.foldl (fun a c => 10 * a + (c.toNat - 48)) 0

def digitsToInt (g : List Char) : Int :=
  (digitsToNat g : Int)

/-- get_elo_for_team(team_name, default): resolve, fetch the detail page,
search the raw markup then the extracted text for the Elo pattern; any
failure path yields the default.  fetch models fetch_page_text (which can
raise, hence Except); getText models BeautifulSoup(html).get_text(" "). -/
def get_elo_for_team (fetch : String → Except String String) (getText : String → String)
    (ratioFn : String → String → ℚ) (index : List (String × String × String))
    (team_name : String) (default : Int) : Int :=
  match find_clubelo_href ratioFn index team_name with
  | (none, _) => default
  | (some href, _) =>
    if href == "" then default
    else
      match fetch (CLUBELO_BASE ++ href) with
      | Except.error _ => default
      | Except.ok html =>
        match searchElo html.data with
        | some g => digitsToInt g
        | none =>
          match searchElo (getText html).data with
          | some g => digitsToInt g
          | none => default

/-! ## Fixture parser parse_espn_fixtures_page (source line 118-195) -/

structure FixtureRecord where
  date_text : String
  time_text : String
  competition : String
  opponent : String
  home : Bool
deriving DecidableEq

/-- Full match of the date pattern [A-Za-z]\x7b3,9\x7d,\x5cs+[A-Za-z]\x7b3,9\x7d\x5cs+\x5cd\x7b1,2\x7d$
(re.match anchored at the start, $ at the end of the stripped line). -/
def dateMatch (s : String) : Bool :=
  let l := s.data
  let w := l.takeWhile isAsciiAlpha
  let r1 := l.dropWhile isAsciiAlpha
  if 3 ≤ w.length && w.length ≤ 9 then
    match r1 with
    | ',' :: r2 =>
      let sp1 := r2.takeWhile isPySpace
      let r3 := r2.dropWhile isPySpace
      if 1 ≤ sp1.length then
        let m := r3.takeWhile isAsciiAlpha
        let r4 := r3.dropWhile isAsciiAlpha
        if 3 ≤ m.length && m.length ≤ 9 then
          let sp2 := r4.takeWhile isPySpace
          let r5 := r4.dropWhile isPySpace
          if 1 ≤ sp2.length then
            let d := r5.takeWhile isAsciiDigit
            let r6 := r5.dropWhile isAsciiDigit
            (1 ≤ d.length && d.length ≤ 2) && r6.isEmpty
          else false
        else false
      else false
    | _ => false
  else false

/-- Tail of the time pattern after the digits: \x5cs* then AM or PM,
case-insensitively.  pre is the already matched digit-and-colon part; the
whole group-0 text is returned. -/
def ampmTail (pre rest : List Char) : Option (List Char) :=
  let sp := rest.takeWhile isPySpace
  let r := rest.dropWhile isPySpace
  match r with
  | x :: y :: _ =>
    if (x == 'A' || x == 'a' || x == 'P' || x == 'p') && (y == 'M' || y == 'm') then
      some (pre ++ sp ++ [x, y])
    else none
  | _ => none

/-- Two-digit-hour shape dd:dd of \x5cd\x7b1,2\x7d:\x5cd\x7b2\x7d (the greedy first try). -/
def timeTry2 : List Char → Option (List Char)
  | a :: b :: ':' :: c :: d :: rest =>
    if isAsciiDigit a && isAsciiDigit b && isAsciiDigit c && isAsciiDigit d then
      ampmTail [a, b, ':', c, d] rest
    else none
  | _ => none

/-- One-digit-hour shape d:dd (the backtracked second try). -/
def timeTry1 : List Char → Option (List Char)
  | a :: ':' :: c :: d :: rest =>
    if isAsciiDigit a && isAsciiDigit c && isAsciiDigit d then
      ampmTail [a, ':', c, d] rest
    else none
  | _ => none

/-- re.search of the time pattern \x5cd\x7b1,2\x7d:\x5cd\x7b2\x7d\x5cs*(AM|PM) with IGNORECASE:
leftmost position, two-digit hour preferred at each position. -/
def timeSearch : List Char → Option (List Char)
  | [] => none
  | l@(_ :: rest) =>
    match timeTry2 l with
    | some m => some m
    | none =>
      match timeTry1 l with
      | some m => some m
      | none => timeSearch rest

/-- Python str.replace(pat, '') : every non-overlapping occurrence of pat
is removed, scanning left to right. -/
def pyRemoveAux (pat : List Char) : Nat → List Char → List Char
  | 0, hay => hay
  | fuel + 1, hay =>
    match hay with
    | [] => []
    | c :: rest =>
      if !pat.isEmpty && pat.isPrefixOf (c :: rest) then
        pyRemoveAux pat fuel ((c :: rest).drop pat.length)
      else c :: pyRemoveAux pat fuel rest

def pyRemove (hay pat : List Char) : List Char :=
  pyRemoveAux pat hay.length hay

/-- Python str.strip(): leading and trailing whitespace removed. -/
def pyStrip (s : List Char) : List Char :=
  ((s.dropWhile isPySpace).reverse.dropWhile isPySpace).reverse

/-- Alias test of the source: 'Manchester United' in t or 'Man Utd' in t
or 'ManUnited' in t (line 166 and 170). -/
def aliasHit (t : String) : Bool :=
  containsSub t "Manchester United" || containsSub t "Man Utd" || containsSub t "ManUnited"

/-- Block handled when lines[i] is a separator line (source line 140-181):
team A is lines[i-1], team B is lines[i+1], up to three following lines are
searched for a time-like token, and a record is produced when either side
contains a target alias. -/
def recordsAt (lines : List String) (i : Nat) (current_date : Option String) :
    List FixtureRecord :=
  let team_a := lines.getD (i - 1) ""
  let team_b := lines.getD (i + 1) ""
  let tl := (List.range 3).filterMap
    (fun k => if i + 2 + k < lines.length then some (lines.getD (i + 2 + k) "") else none)
  let tc := tl.findSome? (fun t => (timeSearch t.data).map (fun m => (m, t)))
  let time_text : String := match tc with | some (m, _) => ⟨m⟩ | none => ""
  let comp_text : String :=
    match tc with | some (m, t) => ⟨pyStrip (pyRemove t.data m)⟩ | none => ""
  if aliasHit team_a then
    [⟨current_date.getD "", time_text, comp_text, team_b, true⟩]
  else if aliasHit team_b then
    [⟨current_date.getD "", time_text, comp_text, team_a, false⟩]
  else []

/-- Main while-loop of the parser (source line 133-184).  Every branch ends
with i += 1, so the loop is a scan over indices; fuel bounds the number of
iterations and lines.length is always enough since the scan starts at 1.
The source checks i-1 >= 0 and i+1 < len(lines) before using the
neighbours of a separator line. -/
def scanLoop (lines : List String) : Nat → Nat → Option String → List FixtureRecord →
    List FixtureRecord
  | 0, _, _, fixtures => fixtures
  | fuel + 1, i, current_date, fixtures =>
    if i < lines.length then
      let ln := lines.getD i ""
      if dateMatch ln then
        scanLoop lines fuel (i + 1) (some ln) fixtures
      else if ln == "v" || ln == "vs" || ln == "V" then
        if 1 ≤ i && i + 1 < lines.length then
          scanLoop lines fuel (i + 1) current_date (fixtures ++ recordsAt lines i current_date)
        else
          scanLoop lines fuel (i + 1) current_date fixtures
      else
        scanLoop lines fuel (i + 1) current_date fixtures
    else fixtures

/-- Raw fixture list of the parser.  The source initialises i = 1 (line
132), so the scan begins at the second line. -/
def fixturesOfLines (lines : List String) : List FixtureRecord :=
  scanLoop lines lines.length 1 none []

/-- Deduplication key (date_text, opponent, home) of source line 189. -/
def fixtureKey (f : FixtureRecord) : String × String × Bool :=
  (f.date_text, f.opponent, f.home)

/-- Deduplicate-and-limit loop of source line 186-194: unseen keys are
appended, and after each element the loop stops as soon as the output has
reached the limit. -/
def dedupLoop (limit : Nat) : List FixtureRecord → List (String × String × Bool) →
    List FixtureRecord → List FixtureRecord
  | [], _, out => out
  | f :: rest, seen, out =>
    if fixtureKey f ∈ seen then
      if limit ≤ out.length then out else dedupLoop limit rest seen out
    else
      if limit ≤ (out ++ [f]).length then out ++ [f]
      else dedupLoop limit rest (fixtureKey f :: seen) (out ++ [f])

def dedupLimit (fixtures : List FixtureRecord) (limit : Nat) : List FixtureRecord :=
  dedupLoop limit fixtures [] []

/-- parse_espn_fixtures_page(limit), applied to the non-empty stripped
lines of the fetched page text (the fetch and soup.get_text of line
122-126 are external). -/
def parse_espn_fixtures_page (lines : List String) (limit : Nat) : List FixtureRecord :=
  dedupLimit (fixturesOfLines lines) limit

/-! ## Outcome model (source line 197-221), over the reals -/

/-- elo_expected(a, b) = 1 / (1 + 10 ** ((b - a) / 400)). -/
noncomputable def elo_expected (a b : ℝ) : ℝ :=
  1 / (1 + (10 : ℝ) ^ ((b - a) / 400))

/-- Rating of side A after the home-advantage bonus HOME_ADV = 100. -/
noncomputable def adj_a (elo_a : ℝ) (man_is_home : Bool) : ℝ :=
  if man_is_home then elo_a + 100 else elo_a

/-- Rating of side B after the home-advantage bonus. -/
noncomputable def adj_b (elo_b : ℝ) (man_is_home : Bool) : ℝ :=
  if man_is_home then elo_b else elo_b + 100

/-- draw_prob = max(0.10, 0.23 - gap / 2000) with gap = abs(ra - rb). -/
noncomputable def draw_prob (ra rb : ℝ) : ℝ :=
  max 0.10 (0.23 - |ra - rb| / 2000)

/-- probability_from_elos(elo_a, elo_b, man_is_home) as the triple
(p_win, p_draw, p_loss), including the final drift correction on p_loss. -/
noncomputable def probability_from_elos (elo_a elo_b : ℝ) (man_is_home : Bool) :
    ℝ × ℝ × ℝ :=
  let ra := adj_a elo_a man_is_home
  let rb := adj_b elo_b man_is_home
  let dp := draw_prob ra rb
  let pe := elo_expected ra rb
  let p_win := (1 - dp) * pe
  let p_loss := (1 - dp) * (1 - pe)
  let rem := 1 - (p_win + dp + p_loss)
  (p_win, dp, if 1e-6 < |rem| then p_loss + rem else p_loss)

/-- Win probability as a function of the signed adjusted-rating gap
s = ra - rb; used for the monotonicity analysis. -/
noncomputable def pwin_gap (s : ℝ) : ℝ :=
  (1 - max 0.10 (0.23 - |s| / 2000)) * (1 / (1 + (10 : ℝ) ^ (-s / 400)))

/-! ## Concrete inputs used by evaluations and witnesses -/

/-- Lines of the fixture-parser literal case of the spec. -/
def espnLines : List String :=
  ["Sun, Aug 24", "Manchester United", "v", "Leeds United",
   "11:30 AM English Premier League"]

/-- A concrete fixture record. -/
def f0 : FixtureRecord :=
  ⟨"Sun, Aug 24", "", "", "Leeds United", true⟩

/-- A constant similarity function with value one half. -/
def ratioHalf : String → String → ℚ := fun _ _ => 1 / 2

/-- A one-entry ClubElo index. -/
def idxArsenal : List (String × String × String) :=
  [("Arsenal", "/Arsenal", "arsenal")]

/-- A fetch that always fails. -/
def fetchErr : String → Except String String := fun _ => Except.error "net"

/-- A fetch returning a page without any Elo pattern. -/
def fetchHello : String → Except String String := fun _ => Except.ok "hello"

/-- A fetch returning a page whose Elo figure has a leading zero. -/
def fetchZeroElo : String → Except String String := fun _ => Except.ok "Elo 011"

/-- Identity stand-in for BeautifulSoup get_text. -/
def idText : String → String := fun s => s

/-- Output alphabet of the normalizer: lowercase a-z or the digits 0 and 1,
and in particular never a digit 2-9. -/
def goodOut (c : Char) : Bool :=
  (decide ('a' ≤ c) && decide (c ≤ 'z') || c == '0' || c == '1') &&
  !(decide ('2' ≤ c) && decide (c ≤ '9'))

/-! ## Lemmas on the normalizer -/

theorem keep_pyLower (c : Char) (h : keepChar c = true) : pyLower c = c := by
  unfold keepChar at h
  simp only [Bool.or_eq_true, Bool.and_eq_true, decide_eq_true_eq, beq_iff_eq] at h
  rcases h with (⟨h1, _⟩ | rfl) | rfl
  · unfold pyLower
    rw [if_neg]
    simp only [Bool.and_eq_true, decide_eq_true_eq, not_and]
    intro _ h4
    exact absurd (le_trans h1 h4) (by decide)
  · decide
  · decide

theorem filter_map_pyLower_self (l : List Char) (h : ∀ c ∈ l, keepChar c = true) :
    (l.map pyLower).filter keepChar = l := by
  induction l with
  | nil => rfl
  | cons c t ih =>
    have hc : keepChar c = true := h c (List.mem_cons_self c t)
    have ht : ∀ x ∈ t, keepChar x = true := fun x hx => h x (List.mem_cons_of_mem c hx)
    simp only [List.map_cons, List.filter_cons, keep_pyLower c hc, hc, if_true]
    rw [ih ht]

theorem normalize_data_keep (s : String) : ∀ c ∈ (normalize s).data, keepChar c = true :=
  fun _ hc => List.of_mem_filter hc

/-- C8: normalize is idempotent: normalizing an already normalized string
changes nothing, since its characters are fixed by lowering and all pass
the keep filter. -/
theorem c8_normalize_idempotent (s : String) :
    UnitedApp.normalize (UnitedApp.normalize s) = UnitedApp.normalize s := by
  unfold normalize
  congr 1
  exact filter_map_pyLower_self _ (fun c hc => List.of_mem_filter hc)

/-- C9: every character of the output of normalize is a lowercase letter
a-z or one of the digits 0 and 1; in particular the digits 2-9 are removed,
because the character class of the source regex is [^a-z1-10]. -/
theorem c9_normalize_alphabet (s : String) :
    (UnitedApp.normalize s).data.all goodOut = true := by
  rw [List.all_eq_true]
  intro c hc
  have h := normalize_data_keep s c hc
  unfold keepChar at h
  simp only [Bool.or_eq_true, Bool.and_eq_true, decide_eq_true_eq, beq_iff_eq] at h
  unfold goodOut
  rcases h with (⟨h1, h2⟩ | rfl) | rfl
  · have h9 : decide (c ≤ '9') = false :=
      decide_eq_false (fun hle => absurd (le_trans h1 hle) (by decide))
    simp [h1, h2, h9]
  · decide
  · decide

/-! ## Evaluation of the parser literal case -/

/-- C2: on the five literal lines the parser returns exactly one record,
with opponent Leeds United, home fixture, time 11:30 AM and competition
English Premier League, but with an empty date_text: the scan of the
source starts at index 1, so the date line at index 0 is never examined
and current_date is still None when the record is built. -/
theorem c2_parser_literal_case :
    UnitedApp.parse_espn_fixtures_page espnLines 20 =
      [⟨"", "11:30 AM", "English Premier League", "Leeds United", true⟩] := by
  decide

/-! ## Properties of the deduplicate-and-limit loop -/

theorem dedupLoop_length (limit : Nat) (fs : List FixtureRecord) :
    ∀ seen out, out.length < limit → (dedupLoop limit fs seen out).length ≤ limit := by
  induction fs with
  | nil => intro seen out h; simpa only [dedupLoop] using h.le
  | cons f rest ih =>
    intro seen out h
    simp only [dedupLoop]
    by_cases hk : fixtureKey f ∈ seen
    · rw [if_pos hk, if_neg (Nat.not_le.2 h)]
      exact ih seen out h
    · rw [if_neg hk]
      by_cases hl : limit ≤ (out ++ [f]).length
      · rw [if_pos hl]
        simpa using h
      · rw [if_neg hl]
        exact ih _ _ (not_le.mp hl)

theorem dedupLoop_sublist (limit : Nat) (fs : List FixtureRecord) :
    ∀ seen out, ∃ t, dedupLoop limit fs seen out = out ++ t ∧ t.Sublist fs := by
  induction fs with
  | nil => intro seen out; exact ⟨[], by simp [dedupLoop], List.nil_sublist []⟩
  | cons f rest ih =>
    intro seen out
    by_cases hk : fixtureKey f ∈ seen
    · by_cases hl : limit ≤ out.length
      · exact ⟨[], by simp [dedupLoop, hk, hl], List.nil_sublist _⟩
      · obtain ⟨t, ht, hs⟩ := ih seen out
        exact ⟨t, by simp [dedupLoop, hk, hl, ht], hs.cons f⟩
    · by_cases hl : limit ≤ (out ++ [f]).length
      · refine ⟨[f], ?_, (List.nil_sublist rest).cons₂ f⟩
        simp only [dedupLoop]
        rw [if_neg hk, if_pos hl]
      · obtain ⟨t, ht, hs⟩ := ih (fixtureKey f :: seen) (out ++ [f])
        refine ⟨f :: t, ?_, hs.cons₂ f⟩
        simp only [dedupLoop]
        rw [if_neg hk, if_neg hl, ht]
        simp

theorem dedupLoop_nodup (limit : Nat) (fs : List FixtureRecord) :
    ∀ seen out, (∀ k ∈ out.map fixtureKey, k ∈ seen) → (out.map fixtureKey).Nodup →
      ((dedupLoop limit fs seen out).map fixtureKey).Nodup := by
  induction fs with
  | nil => intro seen out _ hn; simpa only [dedupLoop] using hn
  | cons f rest ih =>
    intro seen out hsub hn
    by_cases hk : fixtureKey f ∈ seen
    · by_cases hl : limit ≤ out.length
      · simpa [dedupLoop, hk, hl] using hn
      · simp only [dedupLoop, if_pos hk, if_neg hl]
        exact ih seen out hsub hn
    · have hnotin : fixtureKey f ∉ out.map fixtureKey := fun hmem => hk (hsub _ hmem)
      have hn' : ((out ++ [f]).map fixtureKey).Nodup := by
        simp only [List.map_append, List.map_cons, List.map_nil]
        rw [List.nodup_append]
        refine ⟨hn, List.nodup_singleton _, ?_⟩
        intro a ha hb
        simp only [List.mem_singleton] at hb
        exact hnotin (hb ▸ ha)
      have hsub' : ∀ k ∈ (out ++ [f]).map fixtureKey, k ∈ fixtureKey f :: seen := by
        intro k hkmem
        simp only [List.map_append, List.map_cons, List.map_nil, List.mem_append,
          List.mem_singleton] at hkmem
        rcases hkmem with h1 | h1
        · exact List.mem_cons_of_mem _ (hsub _ h1)
        · exact h1 ▸ List.mem_cons_self _ _
      by_cases hl : limit ≤ (out ++ [f]).length
      · simp only [dedupLoop]
        rw [if_neg hk, if_pos hl]
        exact hn'
      · simp only [dedupLoop]
        rw [if_neg hk, if_neg hl]
        exact ih _ _ hsub' hn'

theorem dedupLoop_first (limit : Nat) (fs : List FixtureRecord) :
    ∀ seen out, (∀ k, k ∈ seen ↔ k ∈ out.map fixtureKey) →
      ∀ g ∈ dedupLoop limit fs seen out,
        g ∈ out ∨ (fixtureKey g ∉ seen ∧
          fs.find? (fun x => fixtureKey x == fixtureKey g) = some g) := by
  induction fs with
  | nil =>
    intro seen out _ g hg
    left
    simpa [dedupLoop] using hg
  | cons f rest ih =>
    intro seen out hinv g hg
    by_cases hk : fixtureKey f ∈ seen
    · by_cases hl : limit ≤ out.length
      · left; simpa [dedupLoop, hk, hl] using hg
      · simp only [dedupLoop, if_pos hk, if_neg hl] at hg
        rcases ih seen out hinv g hg with h | ⟨hns, hfind⟩
        · exact Or.inl h
        · have hne : fixtureKey f ≠ fixtureKey g := fun he => hns (he ▸ hk)
          right
          refine ⟨hns, ?_⟩
          rw [List.find?_cons_of_neg _ (by simpa using hne)]
          exact hfind
    · have hinv' : ∀ k, k ∈ fixtureKey f :: seen ↔ k ∈ (out ++ [f]).map fixtureKey := by
        intro k
        simp only [List.mem_cons, List.map_append, List.map_cons, List.map_nil,
          List.mem_append, List.mem_singleton]
        rw [hinv k]
        tauto
      by_cases hl : limit ≤ (out ++ [f]).length
      · simp only [dedupLoop, if_neg hk, if_pos hl] at hg
        rcases List.mem_append.1 hg with h | h
        · exact Or.inl h
        · simp only [List.mem_singleton] at h
          subst h
          exact Or.inr ⟨hk, by rw [List.find?_cons_of_pos _ (by simp)]⟩
      · simp only [dedupLoop, if_neg hk, if_neg hl] at hg
        rcases ih _ _ hinv' g hg with h | ⟨hns, hfind⟩
        · rcases List.mem_append.1 h with h1 | h1
          · exact Or.inl h1
          · simp only [List.mem_singleton] at h1
            subst h1
            exact Or.inr ⟨hk, by rw [List.find?_cons_of_pos _ (by simp)]⟩
        · have h1 : fixtureKey f ≠ fixtureKey g :=
            fun he => hns (by rw [he]; exact List.mem_cons_self _ _)
          have h2 : fixtureKey g ∉ seen := fun hm => hns (List.mem_cons_of_mem _ hm)
          right
          refine ⟨h2, ?_⟩
          rw [List.find?_cons_of_neg _ (by simpa using h1)]
          exact hfind

/-- C7 counterexample: with limit 0 and one raw record the final output
holds one record, not at most zero, because the stop check of the source
runs only after a record has been appended. -/
theorem c7_limit_zero_counterexample :
    ¬((UnitedApp.dedupLimit [f0] 0).length ≤ 0) := by decide

/-- C7 as amended: for every raw candidate list and every limit of at
least one, the final output has at most limit records, its dedup keys
(date_text, opponent, home) are pairwise distinct, it is a subsequence of
the raw list (first-seen order preserved), and every output record is the
first raw record bearing its key.  The original claim fails only at
limit = 0, where one record can still be emitted. -/
theorem c7_amended_dedup_limit (fs : List FixtureRecord) (limit : Nat) (hl : 1 ≤ limit) :
    (UnitedApp.dedupLimit fs limit).length ≤ limit ∧
    ((UnitedApp.dedupLimit fs limit).map fixtureKey).Nodup ∧
    (UnitedApp.dedupLimit fs limit).Sublist fs ∧
    ∀ g ∈ UnitedApp.dedupLimit fs limit,
      fs.find? (fun x => fixtureKey x == fixtureKey g) = some g := by
  refine ⟨?_, ?_, ?_, ?_⟩
  · exact dedupLoop_length limit fs [] [] (by simpa using hl)
  · exact dedupLoop_nodup limit fs [] [] (by simp) (by simp)
  · obtain ⟨t, ht, hs⟩ := dedupLoop_sublist limit fs [] []
    rw [dedupLimit, ht]
    simpa using hs
  · intro g hg
    rcases dedupLoop_first limit fs [] [] (by simp) g hg with h | ⟨_, h2⟩
    · simp at h
    · exact h2

/-- C7 witness: the amended statement applied to two equal raw records and
limit one. -/
theorem c7_amended_dedup_limit_witness :
    1 ≤ 1 ∧
    ((UnitedApp.dedupLimit [f0, f0] 1).length ≤ 1 ∧
      ((UnitedApp.dedupLimit [f0, f0] 1).map fixtureKey).Nodup ∧
      (UnitedApp.dedupLimit [f0, f0] 1).Sublist [f0, f0] ∧
      ∀ g ∈ UnitedApp.dedupLimit [f0, f0] 1,
        [f0, f0].find? (fun x => fixtureKey x == fixtureKey g) = some g) :=
  ⟨by decide, c7_amended_dedup_limit [f0, f0] 1 (by decide)⟩

/-! ## Properties of the fuzzy resolver -/

/-- Similarity ratio of an index entry against the normalized target, in
the argument order of the source: SequenceMatcher(None, norm, target). -/
def ratioOf (ratioFn : String → String → ℚ) (target : String)
    (e : String × String × String) : ℚ :=
  ratioFn e.2.2 target

/-- Best (maximal) similarity ratio tracked by the loop, seeded with the
initial value 0.0 of best. -/
def bestRatio (ratioFn : String → String → ℚ) (target : String)
    (index : List (String × String × String)) : ℚ :=
  (index.map (ratioOf ratioFn target)).foldl max 0

theorem foldl_max_init (l : List ℚ) (a : ℚ) : a ≤ l.foldl max a := by
  induction l generalizing a with
  | nil => exact le_refl a
  | cons x t ih => exact le_trans (le_max_left a x) (ih (max a x))

theorem foldl_max_mem (l : List ℚ) : ∀ a x, x ∈ l → x ≤ l.foldl max a := by
  induction l with
  | nil => intro a x hx; cases hx
  | cons y t ih =>
    intro a x hx
    rcases List.mem_cons.1 hx with rfl | h
    · simpa only [List.foldl_cons] using le_trans (le_max_right a x) (foldl_max_init t _)
    · simp only [List.foldl_cons]
      exact ih _ _ h

theorem foldl_max_all_le (l : List ℚ) : ∀ a, (∀ x ∈ l, x ≤ a) → l.foldl max a = a := by
  induction l with
  | nil => intro a _; rfl
  | cons y t ih =>
    intro a h
    simp only [List.foldl_cons]
    rw [max_eq_left (h y (List.mem_cons_self y t))]
    exact ih a (fun x hx => h x (List.mem_cons_of_mem y hx))

/-- When an entry is neither an exact nor a substring match, the loop
either improves its running best strictly or keeps it. -/
theorem resolveLoop_cons_fuzzy (ratioFn : String → String → ℚ) (target : String)
    (display href norm : String) (rest : List (String × String × String))
    (best : Option String × Option String × ℚ)
    (h1 : norm ≠ target)
    (h2a : containsSub norm target = false) (h2b : containsSub target norm = false) :
    resolveLoop ratioFn target ((display, href, norm) :: rest) best =
      if best.2.2 < ratioFn norm target then
        resolveLoop ratioFn target rest (some href, some display, ratioFn norm target)
      else resolveLoop ratioFn target rest best := by
  simp only [resolveLoop]
  rw [if_neg (by simp [h1]), if_neg (by simp [h2a, h2b])]

/-- When no entry matches exactly or by substring and every ratio stays
below the threshold, and the running best is below it too, the loop
reports absent. -/
theorem resolveLoop_below (ratioFn : String → String → ℚ) (target : String) :
    ∀ (idx : List (String × String × String)) (bh bd : Option String) (bv : ℚ),
      (∀ e ∈ idx, e.2.2 ≠ target) →
      (∀ e ∈ idx, containsSub e.2.2 target = false ∧ containsSub target e.2.2 = false) →
      (∀ e ∈ idx, ratioOf ratioFn target e < 0.65) →
      bv < 0.65 →
      resolveLoop ratioFn target idx (bh, bd, bv) = (none, none) := by
  intro idx
  induction idx with
  | nil =>
    intro bh bd bv _ _ _ hbv
    simp only [resolveLoop]
    rw [if_neg (not_le.2 hbv)]
  | cons e rest ih =>
    obtain ⟨display, href, norm⟩ := e
    intro bh bd bv hex hsub hall hbv
    rw [resolveLoop_cons_fuzzy ratioFn target display href norm rest _
      (hex _ (List.mem_cons_self _ _))
      (hsub _ (List.mem_cons_self _ _)).1 (hsub _ (List.mem_cons_self _ _)).2]
    have hex' : ∀ e ∈ rest, e.2.2 ≠ target := fun e he => hex e (List.mem_cons_of_mem _ he)
    have hsub' : ∀ e ∈ rest, containsSub e.2.2 target = false ∧
        containsSub target e.2.2 = false := fun e he => hsub e (List.mem_cons_of_mem _ he)
    have hall' : ∀ e ∈ rest, ratioOf ratioFn target e < 0.65 :=
      fun e he => hall e (List.mem_cons_of_mem _ he)
    by_cases h3 : bv < ratioFn norm target
    · rw [if_pos h3]
      exact ih _ _ _ hex' hsub' hall' (hall _ (List.mem_cons_self _ _))
    · rw [if_neg h3]
      exact ih _ _ _ hex' hsub' hall' hbv

/-- Behaviour of the loop once its running best has already reached the
threshold: the final answer is either the running best pair (when nothing
later beats it) or the first later entry attaining the maximum. -/
theorem resolveLoop_accepted (ratioFn : String → String → ℚ) (target : String) :
    ∀ (idx : List (String × String × String)) (bh bd : Option String) (bv : ℚ),
      (∀ e ∈ idx, e.2.2 ≠ target) →
      (∀ e ∈ idx, containsSub e.2.2 target = false ∧ containsSub target e.2.2 = false) →
      0.65 ≤ bv →
      (resolveLoop ratioFn target idx (bh, bd, bv) = (bh, bd) ∧
        ∀ e ∈ idx, ratioOf ratioFn target e ≤ bv) ∨
      (∃ i, ∃ hi : i < idx.length,
        resolveLoop ratioFn target idx (bh, bd, bv) =
          (some (idx.get ⟨i, hi⟩).2.1, some (idx.get ⟨i, hi⟩).1) ∧
        bv < ratioOf ratioFn target (idx.get ⟨i, hi⟩) ∧
        ratioOf ratioFn target (idx.get ⟨i, hi⟩) =
          (idx.map (ratioOf ratioFn target)).foldl max bv ∧
        ∀ e ∈ idx.take i,
          ratioOf ratioFn target e < (idx.map (ratioOf ratioFn target)).foldl max bv) := by
  intro idx
  induction idx with
  | nil =>
    intro bh bd bv _ _ hbv
    left
    constructor
    · simp only [resolveLoop]
      rw [if_pos hbv]
    · intro e he; cases he
  | cons e rest ih =>
    obtain ⟨display, href, norm⟩ := e
    intro bh bd bv hex hsub hbv
    have hhead := hex _ (List.mem_cons_self _ _)
    have hheads := hsub _ (List.mem_cons_self _ _)
    have hex' : ∀ e ∈ rest, e.2.2 ≠ target := fun e he => hex e (List.mem_cons_of_mem _ he)
    have hsub' : ∀ e ∈ rest, containsSub e.2.2 target = false ∧
        containsSub target e.2.2 = false := fun e he => hsub e (List.mem_cons_of_mem _ he)
    rw [resolveLoop_cons_fuzzy ratioFn target display href norm rest _ hhead hheads.1 hheads.2]
    have hfold : (((display, href, norm) :: rest).map (ratioOf ratioFn target)).foldl max bv =
        (rest.map (ratioOf ratioFn target)).foldl max (max bv (ratioFn norm target)) := by
      simp only [List.map_cons, List.foldl_cons]
      rfl
    by_cases h3 : bv < ratioFn norm target
    · rw [if_pos h3]
      have hbv' : (0.65 : ℚ) ≤ ratioFn norm target := le_trans hbv h3.le
      rcases ih (some href) (some display) (ratioFn norm target) hex' hsub' hbv' with
        ⟨heq, hall⟩ | ⟨i, hi, heq, hgt, hfd, hearlier⟩
      · right
        refine ⟨0, by simp, ?_, h3, ?_, by simp⟩
        · simpa using heq
        · rw [hfold, max_eq_right h3.le]
          rw [foldl_max_all_le]
          · rfl
          · intro x hx
            rcases List.mem_map.1 hx with ⟨e, he, rfl⟩
            exact hall e he
      · right
        refine ⟨i + 1, by simpa using Nat.succ_lt_succ hi, ?_, ?_, ?_, ?_⟩
        · simpa using heq
        · exact lt_trans h3 (by simpa using hgt)
        · rw [hfold, max_eq_right h3.le]
          simpa using hfd
        · intro x hx
          rw [hfold, max_eq_right h3.le]
          rcases List.mem_cons.1 (by simpa using hx) with rfl | hx'
          · calc ratioOf ratioFn target (display, href, norm) = ratioFn norm target := rfl
              _ < ratioOf ratioFn target (rest.get ⟨i, hi⟩) := hgt
              _ = (rest.map (ratioOf ratioFn target)).foldl max (ratioFn norm target) := hfd
          · exact hearlier x hx'
    · rw [if_neg h3]
      have hle : ratioFn norm target ≤ bv := not_lt.1 h3
      rcases ih bh bd bv hex' hsub' hbv with
        ⟨heq, hall⟩ | ⟨i, hi, heq, hgt, hfd, hearlier⟩
      · left
        refine ⟨heq, ?_⟩
        intro x hx
        rcases List.mem_cons.1 hx with rfl | hx'
        · exact hle
        · exact hall x hx'
      · right
        refine ⟨i + 1, by simpa using Nat.succ_lt_succ hi, ?_, ?_, ?_, ?_⟩
        · simpa using heq
        · simpa using hgt
        · rw [hfold, max_eq_left hle]
          simpa using hfd
        · intro x hx
          rw [hfold, max_eq_left hle]
          rcases List.mem_cons.1 (by simpa using hx) with rfl | hx'
          · calc ratioOf ratioFn target (display, href, norm) = ratioFn norm target := rfl
              _ ≤ bv := hle
              _ < ratioOf ratioFn target (rest.get ⟨i, hi⟩) := by simpa using hgt
              _ = (rest.map (ratioOf ratioFn target)).foldl max bv := hfd
          · exact hearlier x hx'

/-- When no entry matches exactly or by substring, the running best is
still below the threshold but the final maximum reaches it, the loop
returns the first entry attaining that maximum. -/
theorem resolveLoop_reach (ratioFn : String → String → ℚ) (target : String) :
    ∀ (idx : List (String × String × String)) (bh bd : Option String) (bv : ℚ),
      (∀ e ∈ idx, e.2.2 ≠ target) →
      (∀ e ∈ idx, containsSub e.2.2 target = false ∧ containsSub target e.2.2 = false) →
      bv < 0.65 →
      0.65 ≤ (idx.map (ratioOf ratioFn target)).foldl max bv →
      ∃ i, ∃ hi : i < idx.length,
        resolveLoop ratioFn target idx (bh, bd, bv) =
          (some (idx.get ⟨i, hi⟩).2.1, some (idx.get ⟨i, hi⟩).1) ∧
        ratioOf ratioFn target (idx.get ⟨i, hi⟩) =
          (idx.map (ratioOf ratioFn target)).foldl max bv ∧
        ∀ e ∈ idx.take i,
          ratioOf ratioFn target e < (idx.map (ratioOf ratioFn target)).foldl max bv := by
  intro idx
  induction idx with
  | nil =>
    intro bh bd bv _ _ hbv hM
    exact absurd hM (not_le.2 (by simpa using hbv))
  | cons e rest ih =>
    obtain ⟨display, href, norm⟩ := e
    intro bh bd bv hex hsub hbv hM
    have hhead := hex _ (List.mem_cons_self _ _)
    have hheads := hsub _ (List.mem_cons_self _ _)
    have hex' : ∀ e ∈ rest, e.2.2 ≠ target := fun e he => hex e (List.mem_cons_of_mem _ he)
    have hsub' : ∀ e ∈ rest, containsSub e.2.2 target = false ∧
        containsSub target e.2.2 = false := fun e he => hsub e (List.mem_cons_of_mem _ he)
    rw [resolveLoop_cons_fuzzy ratioFn target display href norm rest _ hhead hheads.1 hheads.2]
    have hfold : (((display, href, norm) :: rest).map (ratioOf ratioFn target)).foldl max bv =
        (rest.map (ratioOf ratioFn target)).foldl max (max bv (ratioFn norm target)) := by
      simp only [List.map_cons, List.foldl_cons]
      rfl
    by_cases h3 : bv < ratioFn norm target
    · rw [if_pos h3]
      by_cases hr : ratioFn norm target < 0.65
      · have hM' : (0.65 : ℚ) ≤
            (rest.map (ratioOf ratioFn target)).foldl max (ratioFn norm target) := by
          rw [hfold, max_eq_right h3.le] at hM
          exact hM
        obtain ⟨i, hi, heq, hfd, hearlier⟩ :=
          ih (some href) (some display) (ratioFn norm target) hex' hsub' hr hM'
        refine ⟨i + 1, by simpa using Nat.succ_lt_succ hi, ?_, ?_, ?_⟩
        · simpa using heq
        · rw [hfold, max_eq_right h3.le]
          simpa using hfd
        · intro x hx
          rw [hfold, max_eq_right h3.le]
          rcases List.mem_cons.1 (by simpa using hx) with rfl | hx'
          · calc ratioOf ratioFn target (display, href, norm) = ratioFn norm target := rfl
              _ < 0.65 := hr
              _ ≤ (rest.map (ratioOf ratioFn target)).foldl max (ratioFn norm target) := hM'
          · exact hearlier x hx'
      · have hbv' : (0.65 : ℚ) ≤ ratioFn norm target := not_lt.1 hr
        rcases resolveLoop_accepted ratioFn target rest (some href) (some display)
            (ratioFn norm target) hex' hsub' hbv' with
          ⟨heq, hall⟩ | ⟨i, hi, heq, hgt, hfd, hearlier⟩
        · refine ⟨0, by simp, ?_, ?_, by simp⟩
          · simpa using heq
          · rw [hfold, max_eq_right h3.le]
            rw [foldl_max_all_le]
            · rfl
            · intro x hx
              rcases List.mem_map.1 hx with ⟨e, he, rfl⟩
              exact hall e he
        · refine ⟨i + 1, by simpa using Nat.succ_lt_succ hi, ?_, ?_, ?_⟩
          · simpa using heq
          · rw [hfold, max_eq_right h3.le]
            simpa using hfd
          · intro x hx
            rw [hfold, max_eq_right h3.le]
            rcases List.mem_cons.1 (by simpa using hx) with rfl | hx'
            · calc ratioOf ratioFn target (display, href, norm) = ratioFn norm target := rfl
                _ < ratioOf ratioFn target (rest.get ⟨i, hi⟩) := hgt
                _ = (rest.map (ratioOf ratioFn target)).foldl max (ratioFn norm target) := hfd
            · exact hearlier x hx'
    · rw [if_neg h3]
      have hle : ratioFn norm target ≤ bv := not_lt.1 h3
      have hM' : (0.65 : ℚ) ≤ (rest.map (ratioOf ratioFn target)).foldl max bv := by
        rw [hfold, max_eq_left hle] at hM
        exact hM
      obtain ⟨i, hi, heq, hfd, hearlier⟩ := ih bh bd bv hex' hsub' hbv hM'
      refine ⟨i + 1, by simpa using Nat.succ_lt_succ hi, ?_, ?_, ?_⟩
      · simpa using heq
      · rw [hfold, max_eq_left hle]
        simpa using hfd
      · intro x hx
        rw [hfold, max_eq_left hle]
        rcases List.mem_cons.1 (by simpa using hx) with rfl | hx'
        · calc ratioOf ratioFn target (display, href, norm) = ratioFn norm target := rfl
            _ ≤ bv := hle
            _ < 0.65 := hbv
            _ ≤ (rest.map (ratioOf ratioFn target)).foldl max bv := hM'
        · exact hearlier x hx'

/-- C5: under the no-exact-match and no-substring-match hypotheses the
resolver returns (absent, absent) when the best similarity ratio over all
candidates stays below 0.65, and otherwise returns the first candidate
attaining the best ratio (every earlier candidate rates strictly lower). -/
theorem c5_resolver_threshold (ratioFn : String → String → ℚ)
    (index : List (String × String × String)) (team_name : String)
    (hex : ∀ e ∈ index, e.2.2 ≠ UnitedApp.normalize team_name)
    (hsub : ∀ e ∈ index, containsSub e.2.2 (UnitedApp.normalize team_name) = false ∧
      containsSub (UnitedApp.normalize team_name) e.2.2 = false) :
    (bestRatio ratioFn (UnitedApp.normalize team_name) index < 0.65 →
      find_clubelo_href ratioFn index team_name = (none, none)) ∧
    (0.65 ≤ bestRatio ratioFn (UnitedApp.normalize team_name) index →
      ∃ i, ∃ hi : i < index.length,
        find_clubelo_href ratioFn index team_name =
          (some (index.get ⟨i, hi⟩).2.1, some (index.get ⟨i, hi⟩).1) ∧
        ratioOf ratioFn (UnitedApp.normalize team_name) (index.get ⟨i, hi⟩) =
          bestRatio ratioFn (UnitedApp.normalize team_name) index ∧
        ∀ e ∈ index.take i,
          ratioOf ratioFn (UnitedApp.normalize team_name) e <
            bestRatio ratioFn (UnitedApp.normalize team_name) index) := by
  constructor
  · intro hlt
    apply resolveLoop_below ratioFn (UnitedApp.normalize team_name) index none none 0 hex hsub
    · intro e he
      calc ratioOf ratioFn (UnitedApp.normalize team_name) e ≤
          bestRatio ratioFn (UnitedApp.normalize team_name) index :=
            foldl_max_mem _ _ _ (List.mem_map_of_mem _ he)
        _ < 0.65 := hlt
    · norm_num
  · intro hge
    exact resolveLoop_reach ratioFn (UnitedApp.normalize team_name) index none none 0 hex hsub
      (by norm_num) hge

/-- C5 witness: a one-entry index, a query with no exact or substring
relation, and a constant similarity of one half, which is below the
threshold. -/
theorem c5_resolver_threshold_witness :
    (∀ e ∈ idxArsenal, e.2.2 ≠ UnitedApp.normalize "Zzz") ∧
    (∀ e ∈ idxArsenal, containsSub e.2.2 (UnitedApp.normalize "Zzz") = false ∧
      containsSub (UnitedApp.normalize "Zzz") e.2.2 = false) ∧
    ((bestRatio ratioHalf (UnitedApp.normalize "Zzz") idxArsenal < 0.65 →
      find_clubelo_href ratioHalf idxArsenal "Zzz" = (none, none)) ∧
    (0.65 ≤ bestRatio ratioHalf (UnitedApp.normalize "Zzz") idxArsenal →
      ∃ i, ∃ hi : i < idxArsenal.length,
        find_clubelo_href ratioHalf idxArsenal "Zzz" =
          (some (idxArsenal.get ⟨i, hi⟩).2.1, some (idxArsenal.get ⟨i, hi⟩).1) ∧
        ratioOf ratioHalf (UnitedApp.normalize "Zzz") (idxArsenal.get ⟨i, hi⟩) =
          bestRatio ratioHalf (UnitedApp.normalize "Zzz") idxArsenal ∧
        ∀ e ∈ idxArsenal.take i,
          ratioOf ratioHalf (UnitedApp.normalize "Zzz") e <
            bestRatio ratioHalf (UnitedApp.normalize "Zzz") idxArsenal)) :=
  ⟨by decide, by decide,
    c5_resolver_threshold ratioHalf idxArsenal "Zzz" (by decide) (by decide)⟩

/-! ## Properties of the rating fetcher -/

theorem matchEloAt_shape (l g : List Char) (h : matchEloAt l = some g) :
    (g.length = 3 ∨ g.length = 4) ∧ ∀ c ∈ g, c = '0' ∨ c = '1' := by
  unfold matchEloAt at h
  split at h
  · split at h
    · split at h
      · rename_i hcond
        simp only [isBinDigit, Bool.and_eq_true, Bool.or_eq_true, beq_iff_eq] at hcond
        split at h
        · split at h
          · rename_i hd4
            simp only [isBinDigit, Bool.or_eq_true, beq_iff_eq] at hd4
            obtain rfl := (Option.some.inj h).symm
            refine ⟨Or.inr rfl, ?_⟩
            intro c hc
            simp only [List.mem_cons, List.not_mem_nil, or_false] at hc
            rcases hc with rfl | rfl | rfl | rfl
            · exact hcond.1.1
            · exact hcond.1.2
            · exact hcond.2
            · exact hd4
          · obtain rfl := (Option.some.inj h).symm
            refine ⟨Or.inl rfl, ?_⟩
            intro c hc
            simp only [List.mem_cons, List.not_mem_nil, or_false] at hc
            rcases hc with rfl | rfl | rfl
            · exact hcond.1.1
            · exact hcond.1.2
            · exact hcond.2
        · obtain rfl := (Option.some.inj h).symm
          refine ⟨Or.inl rfl, ?_⟩
          intro c hc
          simp only [List.mem_cons, List.not_mem_nil, or_false] at hc
          rcases hc with rfl | rfl | rfl
          · exact hcond.1.1
          · exact hcond.1.2
          · exact hcond.2
      · exact absurd h (by simp)
    · exact absurd h (by simp)
  · exact absurd h (by simp)

theorem searchElo_shape (l : List Char) :
    ∀ g, searchElo l = some g → (g.length = 3 ∨ g.length = 4) ∧ ∀ c ∈ g, c = '0' ∨ c = '1' := by
  induction l with
  | nil => intro g h; simp [searchElo] at h
  | cons c rest ih =>
    intro g h
    rw [searchElo] at h
    split at h
    · rename_i m heq
      obtain rfl := Option.some.inj h
      exact matchEloAt_shape _ _ heq
    · exact ih g h

theorem digitsToNat_le (g : List Char) (hlen : g.length = 3 ∨ g.length = 4)
    (hd : ∀ c ∈ g, c = '0' ∨ c = '1') : digitsToNat g ≤ 1111 := by
  have hval : ∀ c ∈ g, c.toNat - 48 ≤ 1 := by
    intro c hc
    rcases hd c hc with rfl | rfl <;> decide
  rcases hlen with h3 | h4
  · obtain ⟨a, b, c, rfl⟩ := List.length_eq_three.1 h3
    have ha := hval a (by simp)
    have hb := hval b (by simp)
    have hc := hval c (by simp)
    show 10 * (10 * (10 * 0 + (a.toNat - 48)) + (b.toNat - 48)) + (c.toNat - 48) ≤ 1111
    omega
  · rcases g with _ | ⟨a, t⟩
    · simp at h4
    · have ht : t.length = 3 := by simpa using h4
      obtain ⟨b, c, d, rfl⟩ := List.length_eq_three.1 ht
      have ha := hval a (by simp)
      have hb := hval b (by simp)
      have hc := hval c (by simp)
      have hdd := hval d (by simp)
      show 10 * (10 * (10 * (10 * 0 + (a.toNat - 48)) + (b.toNat - 48)) + (c.toNat - 48)) +
        (d.toNat - 48) ≤ 1111
      omega

/-- C6: get_elo_for_team is a total function into the integers, and on
every failure path it returns the supplied default: when the resolver
reports absent (or an empty link), when the fetch fails, and when neither
the raw markup nor the extracted text matches the Elo pattern. -/
theorem c6_fetcher_defaults (fetch : String → Except String String) (getText : String → String)
    (ratioFn : String → String → ℚ) (index : List (String × String × String))
    (team_name : String) (default : Int) :
    ((find_clubelo_href ratioFn index team_name).1 = none →
      get_elo_for_team fetch getText ratioFn index team_name default = default) ∧
    (∀ h, (find_clubelo_href ratioFn index team_name).1 = some h → h = "" →
      get_elo_for_team fetch getText ratioFn index team_name default = default) ∧
    (∀ h e, (find_clubelo_href ratioFn index team_name).1 = some h → h ≠ "" →
      fetch (CLUBELO_BASE ++ h) = Except.error e →
      get_elo_for_team fetch getText ratioFn index team_name default = default) ∧
    (∀ h html, (find_clubelo_href ratioFn index team_name).1 = some h → h ≠ "" →
      fetch (CLUBELO_BASE ++ h) = Except.ok html → searchElo html.data = none →
      searchElo (getText html).data = none →
      get_elo_for_team fetch getText ratioFn index team_name default = default) := by
  refine ⟨?_, ?_, ?_, ?_⟩
  · intro h1
    rcases hp : find_clubelo_href ratioFn index team_name with ⟨o1, o2⟩
    rw [hp] at h1
    replace h1 : o1 = none := h1
    subst h1
    simp only [get_elo_for_team, hp]
  · intro h h1 h2
    rcases hp : find_clubelo_href ratioFn index team_name with ⟨o1, o2⟩
    rw [hp] at h1
    replace h1 : o1 = some h := h1
    subst h1
    subst h2
    simp only [get_elo_for_team, hp]
    rw [if_pos (by decide)]
  · intro h e h1 h2 h3
    rcases hp : find_clubelo_href ratioFn index team_name with ⟨o1, o2⟩
    rw [hp] at h1
    replace h1 : o1 = some h := h1
    subst h1
    simp only [get_elo_for_team, hp]
    rw [if_neg (by simp [h2])]
    simp only [h3]
  · intro h html h1 h2 h3 h4 h5
    rcases hp : find_clubelo_href ratioFn index team_name with ⟨o1, o2⟩
    rw [hp] at h1
    replace h1 : o1 = some h := h1
    subst h1
    simp only [get_elo_for_team, hp]
    rw [if_neg (by simp [h2])]
    simp only [h3, h4, h5]

theorem find_zzz_none : find_clubelo_href ratioHalf idxArsenal "Zzz" = (none, none) := by
  rw [find_clubelo_href, show UnitedApp.normalize "Zzz" = "zzz" from by decide,
    show idxArsenal = [("Arsenal", "/Arsenal", "arsenal")] from rfl, resolveLoop]
  rw [if_neg (by decide), if_neg (by decide), if_pos (by norm_num [ratioHalf]), resolveLoop,
    if_neg (by norm_num [ratioHalf])]

/-- C6 witness: the four default paths exercised on concrete inputs: an
unresolvable name, a failing fetch, and a fetched page (and its extracted
text) without the Elo pattern. -/
theorem c6_fetcher_defaults_witness :
    (find_clubelo_href ratioHalf idxArsenal "Zzz").1 = none ∧
    get_elo_for_team fetchErr idText ratioHalf idxArsenal "Zzz" 1500 = 1500 ∧
    (find_clubelo_href ratioHalf idxArsenal "Arsenal").1 = some "/Arsenal" ∧
    fetchErr (CLUBELO_BASE ++ "/Arsenal") = Except.error "net" ∧
    get_elo_for_team fetchErr idText ratioHalf idxArsenal "Arsenal" 1500 = 1500 ∧
    get_elo_for_team fetchHello idText ratioHalf idxArsenal "Arsenal" 1500 = 1500 :=
  ⟨by rw [find_zzz_none],
   (c6_fetcher_defaults fetchErr idText ratioHalf idxArsenal "Zzz" 1500).1
     (by rw [find_zzz_none]),
   by decide,
   rfl,
   (c6_fetcher_defaults fetchErr idText ratioHalf idxArsenal "Arsenal" 1500).2.2.1
     "/Arsenal" "net" (by decide) (by decide) rfl,
   (c6_fetcher_defaults fetchHello idText ratioHalf idxArsenal "Arsenal" 1500).2.2.2
     "/Arsenal" "hello" (by decide) (by decide) rfl (by decide) (by decide)⟩

/-- C10 counterexample: a page reading Elo 011 resolves to the rating 11,
which differs from the default 1500 yet is far below 100: the captured
group may carry leading zeros, so the resulting integer need not lie
between 100 and 1111. -/
theorem c10_leading_zero_counterexample :
    UnitedApp.get_elo_for_team fetchZeroElo idText ratioHalf idxArsenal "Arsenal" 1500 = 11 ∧
    (11 : Int) ≠ 1500 ∧ ¬(100 ≤ (11 : Int)) :=
  ⟨by decide, by decide, by decide⟩

/-- C10 as amended: every non-default return value of get_elo_for_team is
int(g) for a group g of three or four characters captured by the pattern
Elo[:\x5cs]*([1-10]\x7b3,4\x7d), so each character of g is 0 or 1 and the value
lies between 0 and 1111; leading zeros mean the value can drop below 100
(for example 011 yields 11). -/
theorem c10_amended_captured_shape (fetch : String → Except String String)
    (getText : String → String) (ratioFn : String → String → ℚ)
    (index : List (String × String × String)) (team_name : String) (default : Int) :
    get_elo_for_team fetch getText ratioFn index team_name default = default ∨
    ∃ g : List Char, (g.length = 3 ∨ g.length = 4) ∧ (∀ c ∈ g, c = '0' ∨ c = '1') ∧
      get_elo_for_team fetch getText ratioFn index team_name default = digitsToInt g ∧
      0 ≤ digitsToInt g ∧ digitsToInt g ≤ 1111 := by
  rcases hp : find_clubelo_href ratioFn index team_name with ⟨o1, o2⟩
  cases o1 with
  | none =>
    left
    simp only [get_elo_for_team, hp]
  | some href =>
    by_cases hh : href = ""
    · left
      subst hh
      simp only [get_elo_for_team, hp]
      rw [if_pos (by decide)]
    · rcases hfetch : fetch (CLUBELO_BASE ++ href) with e | html
      · left
        simp only [get_elo_for_team, hp]
        rw [if_neg (by simp [hh])]
        simp only [hfetch]
      · rcases hs1 : searchElo html.data with _ | g
        · rcases hs2 : searchElo ((getText html).data) with _ | g2
          · left
            simp only [get_elo_for_team, hp]
            rw [if_neg (by simp [hh])]
            simp only [hfetch, hs1, hs2]
          · right
            obtain ⟨hlen, hdig⟩ := searchElo_shape _ _ hs2
            refine ⟨g2, hlen, hdig, ?_, ?_, ?_⟩
            · simp only [get_elo_for_team, hp]
              rw [if_neg (by simp [hh])]
              simp only [hfetch, hs1, hs2]
            · exact Int.natCast_nonneg _
            · show (digitsToNat g2 : Int) ≤ 1111
              exact_mod_cast digitsToNat_le g2 hlen hdig
        · right
          obtain ⟨hlen, hdig⟩ := searchElo_shape _ _ hs1
          refine ⟨g, hlen, hdig, ?_, ?_, ?_⟩
          · simp only [get_elo_for_team, hp]
            rw [if_neg (by simp [hh])]
            simp only [hfetch, hs1]
          · exact Int.natCast_nonneg _
          · show (digitsToNat g : Int) ≤ 1111
            exact_mod_cast digitsToNat_le g hlen hdig

/-! ## Properties of the outcome model -/

theorem draw_prob_ge (ra rb : ℝ) : 0.10 ≤ draw_prob ra rb :=
  le_max_left _ _

theorem draw_prob_le (ra rb : ℝ) : draw_prob ra rb ≤ 0.23 := by
  unfold draw_prob
  apply max_le
  · norm_num
  · linarith [abs_nonneg (ra - rb)]

theorem elo_expected_pos (a b : ℝ) : 0 < elo_expected a b := by
  unfold elo_expected
  positivity

theorem elo_expected_le_one (a b : ℝ) : elo_expected a b ≤ 1 := by
  unfold elo_expected
  rw [div_le_one (by positivity)]
  have := Real.rpow_pos_of_pos (show (0:ℝ) < 10 by norm_num) ((b - a) / 400)
  linarith

/-- The residual rem of the source is exactly zero over the reals, so the
drift-correction branch is never taken and the returned triple has the
closed form below. -/
theorem probability_from_elos_eq (a b : ℝ) (h : Bool) :
    probability_from_elos a b h =
      ((1 - draw_prob (adj_a a h) (adj_b b h)) * elo_expected (adj_a a h) (adj_b b h),
       draw_prob (adj_a a h) (adj_b b h),
       (1 - draw_prob (adj_a a h) (adj_b b h)) * (1 - elo_expected (adj_a a h) (adj_b b h))) := by
  have key : ∀ dp pe : ℝ, (1 : ℝ) - ((1 - dp) * pe + dp + (1 - dp) * (1 - pe)) = 0 := by
    intro dp pe
    ring
  simp only [probability_from_elos, key, abs_zero]
  rw [if_neg (by norm_num : ¬((1e-6 : ℝ) < 0))]

theorem outcome_bounds (dp pe : ℝ) (h1 : 0.10 ≤ dp) (h2 : dp ≤ 0.23)
    (h3 : 0 < pe) (h4 : pe ≤ 1) :
    (1 - dp) * pe + dp + (1 - dp) * (1 - pe) = 1 ∧
    |(1 - dp) * pe + dp + (1 - dp) * (1 - pe) - 1| ≤ 1e-6 ∧
    0 ≤ (1 - dp) * pe ∧ (1 - dp) * pe ≤ 1 ∧ 0 ≤ dp ∧ dp ≤ 1 ∧
    0 ≤ (1 - dp) * (1 - pe) ∧ (1 - dp) * (1 - pe) ≤ 1 := by
  refine ⟨by ring, ?_, ?_, ?_, by linarith, by linarith, ?_, ?_⟩
  · rw [show (1 - dp) * pe + dp + (1 - dp) * (1 - pe) - 1 = 0 from by ring, abs_zero]
    norm_num
  · exact mul_nonneg (by linarith) h3.le
  · exact mul_le_one₀ (by linarith) h3.le h4
  · exact mul_nonneg (by linarith) (by linarith)
  · exact mul_le_one₀ (by linarith) (by linarith) (by linarith)

/-- C3: for every pair of ratings and every home flag the three returned
probabilities sum to one exactly (hence within 1e-6) and each lies in
the unit interval. -/
theorem c3_outcome_invariant (elo_a elo_b : ℝ) (man_is_home : Bool) :
    (probability_from_elos elo_a elo_b man_is_home).1 +
      (probability_from_elos elo_a elo_b man_is_home).2.1 +
      (probability_from_elos elo_a elo_b man_is_home).2.2 = 1 ∧
    |(probability_from_elos elo_a elo_b man_is_home).1 +
      (probability_from_elos elo_a elo_b man_is_home).2.1 +
      (probability_from_elos elo_a elo_b man_is_home).2.2 - 1| ≤ 1e-6 ∧
    0 ≤ (probability_from_elos elo_a elo_b man_is_home).1 ∧
    (probability_from_elos elo_a elo_b man_is_home).1 ≤ 1 ∧
    0 ≤ (probability_from_elos elo_a elo_b man_is_home).2.1 ∧
    (probability_from_elos elo_a elo_b man_is_home).2.1 ≤ 1 ∧
    0 ≤ (probability_from_elos elo_a elo_b man_is_home).2.2 ∧
    (probability_from_elos elo_a elo_b man_is_home).2.2 ≤ 1 := by
  rw [probability_from_elos_eq]
  exact outcome_bounds _ _ (draw_prob_ge _ _) (draw_prob_le _ _)
    (elo_expected_pos _ _) (elo_expected_le_one _ _)

/-- C1 counterexample: at ratings 1700 vs 1500 with home advantage the
adjusted gap is 300, so the raw draw value 0.23 - 300/2000 = 0.08 is
clipped by the floor: the returned draw probability is 0.10, not 0.08. -/
theorem c1_draw_counterexample :
    (probability_from_elos 1700 1500 true).2.1 = 0.10 ∧
    (probability_from_elos 1700 1500 true).2.1 ≠ 0.08 := by
  have hd : (probability_from_elos 1700 1500 true).2.1 = 0.10 := by
    rw [probability_from_elos_eq]
    show draw_prob (adj_a 1700 true) (adj_b 1500 true) = 0.10
    rw [show adj_a 1700 true = 1800 from by norm_num [adj_a],
      show adj_b 1500 true = 1500 from by norm_num [adj_b]]
    unfold draw_prob
    rw [show (1800:ℝ) - 1500 = 300 from by norm_num,
      abs_of_pos (by norm_num : (0:ℝ) < 300),
      max_eq_left (by norm_num : (0.23:ℝ) - 300 / 2000 ≤ 0.10)]
  exact ⟨hd, by rw [hd]; norm_num⟩

theorem ten_rpow_pow_four : ((10:ℝ) ^ (-(3/4) : ℝ)) ^ (4:ℕ) = 1 / 1000 := by
  rw [← Real.rpow_natCast ((10:ℝ) ^ (-(3/4):ℝ)) 4,
    ← Real.rpow_mul (by norm_num : (0:ℝ) ≤ 10),
    show (-(3/4) : ℝ) * ((4:ℕ) : ℝ) = ((-3 : ℤ) : ℝ) from by push_cast; ring,
    Real.rpow_intCast]
  norm_num

theorem ten_rpow_gt : (0.1778:ℝ) < (10:ℝ) ^ (-(3/4) : ℝ) := by
  by_contra hc
  push_neg at hc
  have hpos : (0:ℝ) < (10:ℝ) ^ (-(3/4):ℝ) := Real.rpow_pos_of_pos (by norm_num) _
  have h4 : ((10:ℝ) ^ (-(3/4):ℝ)) ^ (4:ℕ) ≤ (0.1778:ℝ) ^ (4:ℕ) :=
    pow_le_pow_left₀ hpos.le hc 4
  rw [ten_rpow_pow_four] at h4
  norm_num at h4

theorem ten_rpow_lt : (10:ℝ) ^ (-(3/4) : ℝ) < 0.1779 := by
  by_contra hc
  push_neg at hc
  have h4 : (0.1779:ℝ) ^ (4:ℕ) ≤ ((10:ℝ) ^ (-(3/4):ℝ)) ^ (4:ℕ) :=
    pow_le_pow_left₀ (by norm_num) hc 4
  rw [ten_rpow_pow_four] at h4
  norm_num at h4

/-- C1 as amended: at (1700, 1500, home) the adjusted ratings are 1800 vs
1500 but the draw floor binds: the triple equals
(0.9 * expected, 0.10, 0.9 * (1 - expected)) with expected computed from
1800 vs 1500, whence p_win is about 0.764 and p_loss about 0.136 (the
claimed 0.08 / 0.781 / 0.139 ignore the floor of the source). -/
theorem c1_amended_literal_case :
    probability_from_elos 1700 1500 true =
      (0.9 * elo_expected 1800 1500, 0.10, 0.9 * (1 - elo_expected 1800 1500)) ∧
    |0.9 * elo_expected 1800 1500 - 0.764| < 0.001 ∧
    |0.9 * (1 - elo_expected 1800 1500) - 0.136| < 0.001 := by
  have ha : adj_a 1700 true = 1800 := by norm_num [adj_a]
  have hb : adj_b 1500 true = 1500 := by norm_num [adj_b]
  have hdraw : draw_prob 1800 1500 = 0.10 := by
    unfold draw_prob
    rw [show (1800:ℝ) - 1500 = 300 from by norm_num,
      abs_of_pos (by norm_num : (0:ℝ) < 300),
      max_eq_left (by norm_num : (0.23:ℝ) - 300 / 2000 ≤ 0.10)]
  have hE : elo_expected 1800 1500 = 1 / (1 + (10:ℝ) ^ (-(3/4):ℝ)) := by
    unfold elo_expected
    rw [show ((1500:ℝ) - 1800) / 400 = -(3/4) from by norm_num]
  have hX1 := ten_rpow_gt
  have hX2 := ten_rpow_lt
  have hden : (0:ℝ) < 1 + (10:ℝ) ^ (-(3/4):ℝ) := by positivity
  have hE_lb : (0.84896:ℝ) < elo_expected 1800 1500 := by
    rw [hE, lt_div_iff₀ hden]
    nlinarith [hX2]
  have hE_ub : elo_expected 1800 1500 < 0.84905 := by
    rw [hE, div_lt_iff₀ hden]
    nlinarith [hX1]
  refine ⟨?_, ?_, ?_⟩
  · rw [probability_from_elos_eq, ha, hb, hdraw]
    norm_num
  · rw [abs_lt]
    constructor <;> nlinarith [hE_lb, hE_ub]
  · rw [abs_lt]
    constructor <;> nlinarith [hE_lb, hE_ub]

/-! ## Monotonicity of the win probability in the first rating -/

theorem log_ten_gt : (2.3:ℝ) < Real.log 10 := by
  rw [Real.lt_log_iff_exp_lt (by norm_num : (0:ℝ) < 10)]
  have h1 : Real.exp 2.3 ^ (10:ℕ) = Real.exp 23 := by
    rw [← Real.exp_nat_mul]
    norm_num
  have h2 : Real.exp 23 = Real.exp 1 ^ (23:ℕ) := by
    rw [← Real.exp_nat_mul]
    norm_num
  have h3 : Real.exp 1 ^ (23:ℕ) < (2.7182818286:ℝ) ^ (23:ℕ) :=
    pow_lt_pow_left₀ Real.exp_one_lt_d9 (Real.exp_pos 1).le (by norm_num)
  have h4 : (2.7182818286:ℝ) ^ (23:ℕ) < (10:ℝ) ^ (10:ℕ) := by norm_num
  have h5 : Real.exp 2.3 ^ (10:ℕ) < (10:ℝ) ^ (10:ℕ) := by
    rw [h1, h2]
    linarith
  exact lt_of_pow_lt_pow_left₀ 10 (by norm_num) h5

theorem one_add_mul_log_le_ten_rpow (t : ℝ) :
    1 + t * Real.log 10 ≤ (10:ℝ) ^ t := by
  rw [Real.rpow_def_of_pos (by norm_num : (0:ℝ) < 10)]
  have h := Real.add_one_le_exp (Real.log 10 * t)
  have hc : t * Real.log 10 = Real.log 10 * t := mul_comm _ _
  rw [hc]
  linarith

/-- Core inequality behind the monotonicity on the negative-gap side: for
s1 ≤ s2 ≤ 0 the product of the growing linear draw factor and the
shrinking logistic factor still decreases as the gap widens, because the
exponential outgrows the linear term (using log 10 > 2.3). -/
theorem pwin_gap_core (s1 s2 : ℝ) (h12 : s1 ≤ s2) (h2 : s2 ≤ 0) :
    (0.77 - s1 / 2000) * (1 / (1 + (10:ℝ) ^ (-s1 / 400))) ≤
    (0.77 - s2 / 2000) * (1 / (1 + (10:ℝ) ^ (-s2 / 400))) := by
  have hApos : (0:ℝ) < (10:ℝ) ^ (-s2 / 400) := Real.rpow_pos_of_pos (by norm_num) _
  have hBpos : (0:ℝ) < (10:ℝ) ^ (-s1 / 400) := Real.rpow_pos_of_pos (by norm_num) _
  have hA1 : (1:ℝ) ≤ (10:ℝ) ^ (-s2 / 400) := by
    have h := Real.rpow_le_rpow_of_exponent_le (by norm_num : (1:ℝ) ≤ 10)
      (show (0:ℝ) ≤ -s2 / 400 from div_nonneg (by linarith) (by norm_num))
    rwa [Real.rpow_zero] at h
  have hAB : (10:ℝ) ^ (-s2 / 400) ≤ (10:ℝ) ^ (-s1 / 400) :=
    Real.rpow_le_rpow_of_exponent_le (by norm_num) (by linarith)
  have hsum : (10:ℝ) ^ (-s2 / 400) * (10:ℝ) ^ ((s2 - s1) / 400) = (10:ℝ) ^ (-s1 / 400) := by
    rw [← Real.rpow_add (by norm_num : (0:ℝ) < 10)]
    congr 1
    ring
  have ht : (0:ℝ) ≤ (s2 - s1) / 400 := by linarith
  have hexp : 1 + ((s2 - s1) / 400) * Real.log 10 ≤ (10:ℝ) ^ ((s2 - s1) / 400) :=
    one_add_mul_log_le_ten_rpow _
  have hlog := log_ten_gt
  have hstep : (10:ℝ) ^ (-s2 / 400) * (((s2 - s1) / 400) * 2.3) ≤
      (10:ℝ) ^ (-s1 / 400) - (10:ℝ) ^ (-s2 / 400) := by
    have e1 : (10:ℝ) ^ (-s1 / 400) - (10:ℝ) ^ (-s2 / 400) =
        (10:ℝ) ^ (-s2 / 400) * ((10:ℝ) ^ ((s2 - s1) / 400) - 1) := by
      rw [mul_sub, hsum, mul_one]
    rw [e1]
    apply mul_le_mul_of_nonneg_left _ hApos.le
    have e2 : ((s2 - s1) / 400) * 2.3 ≤ ((s2 - s1) / 400) * Real.log 10 :=
      mul_le_mul_of_nonneg_left hlog.le ht
    linarith
  rw [mul_one_div, mul_one_div, div_le_div_iff₀ (by linarith) (by linarith)]
  nlinarith [hstep,
    mul_nonneg (by linarith : (0:ℝ) ≤ s2 - s1)
      (by linarith : (0:ℝ) ≤ (10:ℝ) ^ (-s2 / 400) - 1),
    mul_nonneg (by linarith : (0:ℝ) ≤ -s2)
      (by linarith : (0:ℝ) ≤ (10:ℝ) ^ (-s1 / 400) - (10:ℝ) ^ (-s2 / 400)),
    mul_nonneg (by linarith : (0:ℝ) ≤ s2 - s1) hApos.le]

theorem inv_term_mono (s1 s2 : ℝ) (h : s1 ≤ s2) :
    1 / (1 + (10:ℝ) ^ (-s1 / 400)) ≤ 1 / (1 + (10:ℝ) ^ (-s2 / 400)) := by
  have h2 : (10:ℝ) ^ (-s2 / 400) ≤ (10:ℝ) ^ (-s1 / 400) :=
    Real.rpow_le_rpow_of_exponent_le (by norm_num) (by linarith)
  have hp : (0:ℝ) < 1 + (10:ℝ) ^ (-s2 / 400) := by positivity
  exact one_div_le_one_div_of_le hp (by linarith)

theorem pwin_gap_lo (s : ℝ) (h : s ≤ -260) :
    pwin_gap s = 0.9 * (1 / (1 + (10:ℝ) ^ (-s / 400))) := by
  unfold pwin_gap
  rw [abs_of_nonpos (by linarith), max_eq_left (by linarith)]
  norm_num

theorem pwin_gap_mid (s : ℝ) (h1 : -260 ≤ s) (h2 : s ≤ 0) :
    pwin_gap s = (0.77 - s / 2000) * (1 / (1 + (10:ℝ) ^ (-s / 400))) := by
  unfold pwin_gap
  rw [abs_of_nonpos h2, max_eq_right (by linarith)]
  congr 1
  ring

theorem pwin_gap_hipart (s : ℝ) (h1 : 0 ≤ s) (h2 : s ≤ 260) :
    pwin_gap s = (0.77 + s / 2000) * (1 / (1 + (10:ℝ) ^ (-s / 400))) := by
  unfold pwin_gap
  rw [abs_of_nonneg h1, max_eq_right (by linarith)]
  congr 1
  ring

theorem pwin_gap_hi (s : ℝ) (h : 260 ≤ s) :
    pwin_gap s = 0.9 * (1 / (1 + (10:ℝ) ^ (-s / 400))) := by
  unfold pwin_gap
  rw [abs_of_nonneg (by linarith), max_eq_left (by linarith)]
  norm_num

theorem pwin_mono_lo (s1 s2 : ℝ) (h : s1 ≤ s2) (h2 : s2 ≤ -260) :
    pwin_gap s1 ≤ pwin_gap s2 := by
  rw [pwin_gap_lo s1 (le_trans h h2), pwin_gap_lo s2 h2]
  exact mul_le_mul_of_nonneg_left (inv_term_mono s1 s2 h) (by norm_num)

theorem pwin_mono_mid (s1 s2 : ℝ) (ha : -260 ≤ s1) (h : s1 ≤ s2) (hb : s2 ≤ 0) :
    pwin_gap s1 ≤ pwin_gap s2 := by
  rw [pwin_gap_mid s1 ha (le_trans h hb), pwin_gap_mid s2 (le_trans ha h) hb]
  exact pwin_gap_core s1 s2 h hb

theorem pwin_mono_hipart (s1 s2 : ℝ) (ha : 0 ≤ s1) (h : s1 ≤ s2) (hb : s2 ≤ 260) :
    pwin_gap s1 ≤ pwin_gap s2 := by
  rw [pwin_gap_hipart s1 ha (le_trans h hb), pwin_gap_hipart s2 (le_trans ha h) hb]
  have hE1 : (0:ℝ) < 1 / (1 + (10:ℝ) ^ (-s1 / 400)) := by positivity
  exact mul_le_mul (by linarith) (inv_term_mono s1 s2 h) hE1.le (by linarith)

theorem pwin_mono_hi (s1 s2 : ℝ) (ha : 260 ≤ s1) (h : s1 ≤ s2) :
    pwin_gap s1 ≤ pwin_gap s2 := by
  rw [pwin_gap_hi s1 ha, pwin_gap_hi s2 (le_trans ha h)]
  exact mul_le_mul_of_nonneg_left (inv_term_mono s1 s2 h) (by norm_num)

theorem pwin_mono_nonneg (s1 s2 : ℝ) (ha : 0 ≤ s1) (h : s1 ≤ s2) :
    pwin_gap s1 ≤ pwin_gap s2 := by
  rcases le_total s2 260 with hc | hc
  · exact pwin_mono_hipart s1 s2 ha h hc
  · rcases le_total s1 260 with hd | hd
    · exact le_trans (pwin_mono_hipart s1 260 ha hd le_rfl) (pwin_mono_hi 260 s2 le_rfl hc)
    · exact pwin_mono_hi s1 s2 hd h

theorem pwin_mono_midup (s1 s2 : ℝ) (ha : -260 ≤ s1) (h : s1 ≤ s2) :
    pwin_gap s1 ≤ pwin_gap s2 := by
  rcases le_total s2 0 with hc | hc
  · exact pwin_mono_mid s1 s2 ha h hc
  · rcases le_total s1 0 with hd | hd
    · exact le_trans (pwin_mono_mid s1 0 ha hd le_rfl) (pwin_mono_nonneg 0 s2 le_rfl hc)
    · exact pwin_mono_nonneg s1 s2 hd h

theorem pwin_gap_mono (s1 s2 : ℝ) (h : s1 ≤ s2) : pwin_gap s1 ≤ pwin_gap s2 := by
  rcases le_total s2 (-260) with hc | hc
  · exact pwin_mono_lo s1 s2 h hc
  · rcases le_total s1 (-260) with hd | hd
    · exact le_trans (pwin_mono_lo s1 (-260) hd le_rfl) (pwin_mono_midup (-260) s2 le_rfl hc)
    · exact pwin_mono_midup s1 s2 hd h

/-- The p_win component equals pwin_gap of the signed adjusted gap. -/
theorem pwin_eq_gap (a b : ℝ) (h : Bool) :
    (probability_from_elos a b h).1 = pwin_gap (adj_a a h - adj_b b h) := by
  rw [probability_from_elos_eq]
  show (1 - draw_prob (adj_a a h) (adj_b b h)) * elo_expected (adj_a a h) (adj_b b h) = _
  unfold pwin_gap draw_prob elo_expected
  rw [show adj_b b h - adj_a a h = -(adj_a a h - adj_b b h) from by ring]

/-- C4: with the opponent rating and the home flag fixed, the returned
p_win component is monotonically non-decreasing in the first rating. -/
theorem c4_pwin_monotone (elo_b : ℝ) (man_is_home : Bool) (a1 a2 : ℝ) (h : a1 ≤ a2) :
    (probability_from_elos a1 elo_b man_is_home).1 ≤
    (probability_from_elos a2 elo_b man_is_home).1 := by
  rw [pwin_eq_gap, pwin_eq_gap]
  apply pwin_gap_mono
  unfold adj_a adj_b
  cases man_is_home <;> simp <;> linarith

/-- C4 witness: the monotonicity applied at ratings 1500 and 1600 against
a fixed opponent rating of 1500 at home. -/
theorem c4_pwin_monotone_witness :
    (1500:ℝ) ≤ 1600 ∧
    (probability_from_elos 1500 1500 true).1 ≤ (probability_from_elos 1600 1500 true).1 :=
  ⟨by norm_num, c4_pwin_monotone 1500 true 1500 1600 (by norm_num)⟩

end UnitedApp
